import Mathlib

/-!
Verification of the CLIP-image-search repository.

This file gives a shallow embedding of `search_engine.py` and
`cache_manager.py` and proves properties of the embedded operations.

Modelling conventions:
* numpy float arrays are modelled as lists of rationals (`Vec`); numpy's
  float arithmetic is modelled as exact arithmetic;
* `np.save`/`np.load` round-trip an array exactly, so a stored `.npy` file
  is modelled as its vector of values plus an abstract byte size;
* the cosine similarity `dot(a/|a|, b/|b|)` equals `dot a b / sqrt (|a|^2*|b|^2)`
  in exact arithmetic, so a similarity score is represented by the pair
  `(d, s) = (dot a b, |a|^2*|b|^2)`, standing for the real number `d / sqrt s`;
  when a norm is zero the division `a / np.linalg.norm(a)` produces NaN entries
  and the resulting NaN score is modelled as `none`;
* comparisons on scores follow Python float comparisons: any comparison
  involving NaN is false; on non-NaN scores `d1/sqrt s1 < d2/sqrt s2` is
  decided (for `s1, s2 > 0`) by the equivalent rational inequality
  `d1*|d1|*s2 < d2*|d2|*s1`;
* CPython `list.sort(key=..., reverse=True)` reverses the list, runs a stable
  ascending sort by `<` on the keys, and reverses again.  The stable ascending
  sort is modelled by `List.insertionSort r` with `r a b := (a < b is false... )`,
  precisely: insert an earlier element before the first later element that is
  not strictly smaller than it; for a total preorder comparator every stable
  sort produces the same list, and on the concrete two- and three-element
  NaN examples used below the model coincides with CPython binary insertion;
* the file system relevant to `CacheManager` is modelled as: the base cache
  directory (`FS.root`, holding any legacy flat layout) and one directory per
  model name (`FS.models`, an association list).  A directory that is absent
  behaves exactly like an empty one for every operation modelled here, except
  where the code tests existence explicitly, hence `Option` for `manifest.json`
  content and for the `embeddings` subdirectory listing;
* `json.dump`/`json.load` of a manifest preserve the dict insertion order, so a
  manifest is an association list from image path keys to file names;
* `hashlib.md5(path).hexdigest() + ".npy"` is an opaque file-name function and
  is passed as a parameter `hash`; the byte size `np.save` produces for a
  vector is likewise a parameter `npySize`.
-/

namespace ClipSearch

/-- A numpy float vector, modelled with exact rational entries. -/
abbrev Vec := List ℚ

/-- Model of `np.dot` of two equal-length vectors. -/
def dot (a b : Vec) : ℚ := (List.zipWith (fun x y => x * y) a b).sum

/-- The squared L2 norm `np.linalg.norm(v) ** 2`. -/
def normSq (v : Vec) : ℚ := dot v v

/-- A non-NaN similarity score: the value is `d / sqrt s`
(`d` = dot product of the raw vectors, `s` = product of their squared norms). -/
structure Score where
  d : ℚ
  s : ℚ
deriving DecidableEq

/-- Python `<` on two non-NaN scores, via the sign-preserving square
`t ↦ t*|t|`: for `s1, s2 > 0`, `d1/sqrt s1 < d2/sqrt s2 ↔ d1*|d1|*s2 < d2*|d2|*s1`. -/
def scoreLtB (x y : Score) : Bool := decide (x.d * |x.d| * y.s < y.d * |y.d| * x.s)

/-- Equality of the real values of two non-NaN scores. -/
def scoreEqB (x y : Score) : Bool := decide (x.d * |x.d| * y.s = y.d * |y.d| * x.s)

/-- Model of `SearchEngine._cosine_similarity a b`: normalizes each vector by its L2
norm and takes the dot product.  A zero norm makes the normalization produce
NaN entries (0/0) and the result is NaN (`none`); otherwise the result is
`dot a b / (norm a * norm b)`, represented exactly. -/
def cosine_similarity (a b : Vec) : Option Score :=
  if normSq a = 0 ∨ normSq b = 0 then none
  else some ⟨dot a b, normSq a * normSq b⟩

/-- Python `<` on the (possibly NaN) similarity values:
any comparison involving NaN is false. -/
def optLt : Option Score → Option Score → Bool
  | some x, some y => scoreLtB x y
  | _, _ => false

/-- Python `==` on the (possibly NaN) similarity values: NaN equals nothing,
two non-NaN scores are equal when their real values coincide. -/
def optScoreEq (a b : Option Score) : Bool :=
  match a, b with
  | some x, some y => scoreEqB x y
  | _, _ => false

/-- Python `<` on the sort keys `x[1]` of the result pairs. -/
def keyLt (a b : String × Option Score) : Bool := optLt a.2 b.2

/-- The insertion relation of the modelled stable ascending sort:
a (earlier) element is inserted before the first element not strictly
smaller than it. -/
def ascR (a b : String × Option Score) : Prop := keyLt b a = false

instance : DecidableRel ascR := fun _ _ => instDecidableEqBool _ _

/-- Model of `results.sort(key=lambda x: x[1], reverse=True)`: CPython reverses,
sorts ascending by `<` on the keys (stably), and reverses again. -/
def pySortDesc (l : List (String × Option Score)) : List (String × Option Score) :=
  (List.insertionSort ascR l.reverse).reverse

/-- Python slice `l[:k]` for an integer `k`: a negative `k` counts from the
end, clipping at zero. -/
def pySlice {α : Type} (k : ℤ) (l : List α) : List α :=
  if k < 0 then l.take (l.length - (-k).toNat) else l.take k.toNat

/-- Model of `SearchEngine.search`: the query embedding and the dictionary returned by
`cache_manager.get_all_embeddings()` (an association list in manifest order)
are abstracted as inputs; each candidate is scored by cosine similarity, the
results are sorted by score descending and truncated to `top_k` (default 20). -/
def search (queryEmb : Vec) (embeddings : List (String × Vec))
    (top_k : ℤ := 20) : List (String × Option Score) :=
  if embeddings.isEmpty then []
  else
    pySlice top_k
      (pySortDesc (embeddings.map (fun pv => (pv.1, cosine_similarity queryEmb pv.2))))

/-! ### Cache manager: file-system model -/

/-- A stored `.npy` vector file: `np.load` reads back exactly the values that
`np.save` wrote; `size` is its size in bytes on disk. -/
structure EmbFile where
  vec : Vec
  size : ℕ
deriving DecidableEq

/-- The parsed content of a `manifest.json`: a JSON object mapping image path
keys to embedding file names, in insertion order. -/
abbrev Manifest := List (String × String)

/-- The listing of an `embeddings` directory: file names with their contents. -/
abbrev EmbDirFiles := List (String × EmbFile)

/-- A cache directory: its `manifest.json` (if the file exists) and its
`embeddings` subdirectory (if the directory exists). -/
structure NsDir where
  manifest : Option Manifest
  embDir : Option EmbDirFiles
deriving DecidableEq

/-- The cache file system: the base cache directory (`root`, which holds a
legacy flat layout when present) and one directory per model name. -/
structure FS where
  root : NsDir
  models : List (String × NsDir)
deriving DecidableEq

/-- Association-list lookup (first match wins). -/
def alookup {κ β : Type} [DecidableEq κ] : List (κ × β) → κ → Option β
  | [], _ => none
  | e :: es, k => if e.1 = k then some e.2 else alookup es k

/-- Association-list update with Python dict semantics: an existing key keeps
its position and gets the new value, a new key is appended. -/
def aupsert {κ β : Type} [DecidableEq κ] : List (κ × β) → κ → β → List (κ × β)
  | [], k, v => [(k, v)]
  | e :: es, k, v => if e.1 = k then (k, v) :: es else e :: aupsert es k v

/-- Model of `CacheManager._load_manifest`: parse `manifest.json` if it exists,
else the empty dict. -/
def load_manifest (ns : NsDir) : Manifest := ns.manifest.getD []

/-- The files of the `embeddings` directory (empty when the directory is
absent: listing is always guarded by an existence check in the code). -/
def emb_files (ns : NsDir) : EmbDirFiles := ns.embDir.getD []

/-- Model of `os.path.exists(os.path.join(embeddings_dir, fn))`. -/
def file_exists (ns : NsDir) (fn : String) : Bool := (alookup (emb_files ns) fn).isSome

/-- Model of `CacheManager.get_embedding_path`: the file name recorded in the manifest,
provided the referenced file exists (the full-path prefix is elided). -/
def get_embedding_path (ns : NsDir) (p : String) : Option String :=
  match alookup (load_manifest ns) p with
  | some fn => if file_exists ns fn then some fn else none
  | none => none

/-- Model of `CacheManager.has_embedding`. -/
def has_embedding (ns : NsDir) (p : String) : Bool :=
  (get_embedding_path ns p).isSome

/-- Model of `CacheManager.save_embedding`: writes the `.npy` file (named by the md5
hash of the path) into the embeddings directory and records it in the
manifest.  `np.save` fails when the embeddings directory is missing (`none`). -/
def save_embedding (hash : String → String) (npySize : Vec → ℕ)
    (ns : NsDir) (p : String) (v : Vec) : Option NsDir :=
  match ns.embDir with
  | none => none
  | some files =>
      some { manifest := some (aupsert (load_manifest ns) p (hash p)),
             embDir := some (aupsert files (hash p) ⟨v, npySize v⟩) }

/-- Model of `CacheManager.load_embedding`: `np.load` of the path returned by
`get_embedding_path`, or `None`. -/
def load_embedding (ns : NsDir) (p : String) : Option Vec :=
  match get_embedding_path ns p with
  | some fn => (alookup (emb_files ns) fn).map EmbFile.vec
  | none => none

/-- Model of `CacheManager.get_all_embeddings`: every manifest entry whose file exists,
loaded, in manifest order. -/
def get_all_embeddings (ns : NsDir) : List (String × Vec) :=
  (load_manifest ns).filterMap
    (fun e => (alookup (emb_files ns) e.2).map (fun f => (e.1, f.vec)))

/-- Model of `CacheManager.get_all_image_paths`: the manifest keys. -/
def get_all_image_paths (ns : NsDir) : List String :=
  (load_manifest ns).map Prod.fst

/-- Model of `CacheManager.clear_all`: remove every file of the embeddings directory
(when it exists) and write an empty manifest. -/
def clear_all (ns : NsDir) : NsDir :=
  { manifest := some [], embDir := ns.embDir.map (fun _ => []) }

/-- Model of `os.path.dirname` (POSIX): everything up to the last slash; a head that is
neither empty nor all slashes is stripped of trailing slashes. -/
def dirname (p : String) : String :=
  let head := (p.data.reverse.dropWhile (fun c => ¬ (c = '/'))).reverse
  if head.isEmpty ∨ head.all (fun c => c = '/') then String.mk head
  else String.mk ((head.reverse.dropWhile (fun c => c = '/')).reverse)

/-- The result record of `CacheManager.get_stats`. -/
structure Stats where
  image_count : ℕ
  cache_size_mb : ℚ
  folders : List String
deriving DecidableEq

/-- Insertion relation of the modelled Python `sorted` on strings
(lexicographic by code point). -/
def strAscR (a b : String) : Prop := ¬ b < a

instance : DecidableRel strAscR := fun _ _ => instDecidableNot

/-- Model of `CacheManager.get_stats`: the manifest entry count, the total size of the
files in the embeddings directory in MiB (the manifest lives outside that
directory, so its size is not counted), and `sorted(set(dirname(key)))` over
the manifest keys.  `sorted` of a set is the ascending enumeration of the
distinct elements, independent of the set's iteration order. -/
def get_stats (ns : NsDir) : Stats :=
  { image_count := (load_manifest ns).length,
    cache_size_mb := ((((emb_files ns).map (fun e => e.2.size)).sum : ℕ) : ℚ) / (1024 * 1024),
    folders :=
      List.insertionSort strAscR (((load_manifest ns).map (fun e => dirname e.1)).dedup) }

/-- The directory of model `m` under the cache root; an absent directory
behaves like an empty one. -/
def nsOf (fs : FS) (m : String) : NsDir := (alookup fs.models m).getD ⟨none, none⟩

/-- The file-moving loop of `CacheManager._migrate_if_needed`: each legacy
file is renamed into the destination unless a file of that name already
exists there; returns (files left behind, new destination listing). -/
def moveNew : EmbDirFiles → EmbDirFiles → EmbDirFiles × EmbDirFiles
  | [], dst => ([], dst)
  | e :: rest, dst =>
    if (alookup dst e.1).isSome then
      ((moveNew rest dst).1.cons e, (moveNew rest dst).2)
    else
      moveNew rest (dst ++ [e])

/-- Model of `CacheManager._migrate_if_needed` for model name `m`: if a legacy
`manifest.json` exists at the cache root, create the model's directories, move
each legacy embedding file that does not collide with an existing destination
file, and move the legacy manifest unless the model already has one. -/
def migrate_if_needed (m : String) (fs : FS) : FS :=
  match fs.root.manifest with
  | none => fs
  | some legacyM =>
    { root := { manifest := if ((nsOf fs m).manifest).isSome then some legacyM else none,
                embDir := fs.root.embDir.map
                  (fun _ => (moveNew (emb_files fs.root) (emb_files (nsOf fs m))).1) },
      models := aupsert fs.models m
        ⟨some (((nsOf fs m).manifest).getD legacyM),
         some (moveNew (emb_files fs.root) (emb_files (nsOf fs m))).2⟩ }

/-- Model of `CacheManager._set_model_dir`: `os.makedirs(embeddings_dir, exist_ok=True)`
ensures the model directory and its embeddings directory exist. -/
def set_model_dir (m : String) (fs : FS) : FS :=
  let ns := nsOf fs m
  { fs with models := aupsert fs.models m { ns with embDir := some (emb_files ns) } }

/-- The mutable state of a `CacheManager` (the directory paths are derived
from the model name and the fixed cache root). -/
structure CM where
  model_name : String
deriving DecidableEq

/-- Model of `CacheManager.__init__`: migrate any legacy layout into the constructor's
model namespace, then ensure the model directories exist. -/
def CM.init (m : String) (fs : FS) : FS × CM :=
  (set_model_dir m (migrate_if_needed m fs), ⟨m⟩)

/-- Model of `CacheManager.set_model`: on a genuine model change, switch the derived
directories and ensure they exist; no migration is performed. -/
def set_model (cm : CM) (m : String) (fs : FS) : FS × CM :=
  if m ≠ cm.model_name then (set_model_dir m fs, ⟨m⟩) else (fs, cm)

/-- Model of `clear_all` acting on the file system through the manager's current
model namespace. -/
def cm_clear_all (fs : FS) (m : String) : FS :=
  { fs with models := aupsert fs.models m (clear_all (nsOf fs m)) }

/-- A result pair carrying a non-NaN score with a positive norm product,
i.e. a score actually produced by `cosine_similarity` on vectors of nonzero
norm. -/
def validRes (x : String × Option Score) : Prop :=
  ∃ sc : Score, x.2 = some sc ∧ 0 < sc.s

/-! ## Lemmas -/

open List

theorem alookup_aupsert_self {κ β : Type} [DecidableEq κ] (l : List (κ × β)) (k : κ) (v : β) :
    alookup (aupsert l k v) k = some v := by
  induction l with
  | nil => simp [alookup, aupsert]
  | cons e es ih =>
    by_cases h : e.1 = k
    · simp [alookup, aupsert, h]
    · simp [alookup, aupsert, h, ih]

theorem alookup_aupsert_ne {κ β : Type} [DecidableEq κ] (l : List (κ × β)) {k k1 : κ} (v : β)
    (h : k1 ≠ k) : alookup (aupsert l k v) k1 = alookup l k1 :=
  by
  induction l with
  | nil => simp [alookup, aupsert, Ne.symm h]
  | cons e es ih =>
    by_cases he : e.1 = k
    · simp [alookup, aupsert, he, Ne.symm h]
    · by_cases he1 : e.1 = k1
      · simp [alookup, aupsert, he, he1, h]
      · simp [alookup, aupsert, he, he1, ih]

theorem alookup_append_some {κ β : Type} [DecidableEq κ] {l l2 : List (κ × β)} {k : κ} {v : β}
    (h : alookup l k = some v) : alookup (l ++ l2) k = some v := by
  induction l with
  | nil => simp [alookup] at h
  | cons e es ih =>
    by_cases he : e.1 = k
    · simpa [alookup, he] using by simpa [alookup, he] using h
    · simp only [alookup, he] at h ⊢
      simp [he, ih h]

theorem alookup_mem {κ β : Type} [DecidableEq κ] {l : List (κ × β)} {k : κ} {v : β}
    (h : alookup l k = some v) : (k, v) ∈ l := by
  induction l with
  | nil => simp [alookup] at h
  | cons e es ih =>
    by_cases he : e.1 = k
    · simp only [alookup, he, if_pos] at h
      cases h
      subst he
      exact mem_cons_self e es
    · simp only [alookup, he] at h
      exact mem_cons_of_mem _ (ih (by simpa using h))

theorem moveNew_dst_lookup {src dst : EmbDirFiles} {k : String} {v : EmbFile}
    (h : alookup dst k = some v) : alookup (moveNew src dst).2 k = some v := by
  induction src generalizing dst with
  | nil => simpa [moveNew] using h
  | cons e rest ih =>
    cases he : (alookup dst e.1).isSome with
    | true => simpa [moveNew, he] using ih h
    | false => simpa [moveNew, he] using ih (alookup_append_some h)

theorem moveNew_rem_in_final (src dst : EmbDirFiles) :
    ∀ e ∈ (moveNew src dst).1, (alookup (moveNew src dst).2 e.1).isSome := by
  induction src generalizing dst with
  | nil => simp [moveNew]
  | cons e rest ih =>
    intro f hf
    cases he : (alookup dst e.1).isSome with
    | true =>
      simp only [moveNew, he, if_pos, List.cons, mem_cons] at hf ⊢
      rcases hf with hf | hf
      · subst hf
        obtain ⟨v, hv⟩ := Option.isSome_iff_exists.mp he
        exact Option.isSome_iff_exists.mpr ⟨v, moveNew_dst_lookup hv⟩
      · exact ih dst f hf
    | false =>
      simp only [moveNew, he] at hf ⊢
      exact ih (dst ++ [e]) f hf

theorem moveNew_fixed {src dst : EmbDirFiles}
    (h : ∀ e ∈ src, (alookup dst e.1).isSome) : moveNew src dst = (src, dst) := by
  induction src with
  | nil => simp [moveNew]
  | cons e rest ih =>
    have he : (alookup dst e.1).isSome := h e (by simp)
    simp only [moveNew, he, if_pos, List.cons]
    rw [ih (fun f hf => h f (mem_cons_of_mem _ hf))]

/-- Local sortedness: `orderedInsert` preserves sortedness, assuming totality and transitivity
only on the elements involved (the comparison of `search` results is not
globally transitive because of NaN scores). -/
theorem sorted_orderedInsert_local {α : Type} (r : α → α → Prop) [DecidableRel r] (a : α) :
    ∀ s : List α, s.Pairwise r →
      (∀ b ∈ s, r a b ∨ r b a) →
      (∀ b ∈ s, ∀ c ∈ s, r a b → r b c → r a c) →
      (List.orderedInsert r a s).Pairwise r
  | [], _, _, _ => pairwise_singleton r a
  | b :: s, hs, htot, htr => by
    by_cases hab : r a b
    · rw [List.orderedInsert, if_pos hab]
      refine Pairwise.cons ?_ hs
      intro c hc
      rcases mem_cons.mp hc with hc | hc
      · exact hc ▸ hab
      · exact htr b (mem_cons_self b s) c (mem_cons_of_mem _ hc) hab
          ((pairwise_cons.mp hs).1 c hc)
    · rw [List.orderedInsert, if_neg hab]
      have hs' := (pairwise_cons.mp hs).2
      refine Pairwise.cons ?_
        (sorted_orderedInsert_local r a s hs'
          (fun c hc => htot c (mem_cons_of_mem _ hc))
          (fun c hc d hd => htr c (mem_cons_of_mem _ hc) d (mem_cons_of_mem _ hd)))
      intro c hc
      rcases (List.mem_orderedInsert r).mp hc with hc | hc
      · subst hc
        exact (htot b (mem_cons_self b s)).resolve_left hab
      · exact (pairwise_cons.mp hs).1 c hc

/-- Local sortedness: `insertionSort` sorts, assuming totality and transitivity only on the
elements of the list. -/
theorem sorted_insertionSort_local {α : Type} (r : α → α → Prop) [DecidableRel r] :
    ∀ l : List α,
      (∀ a ∈ l, ∀ b ∈ l, r a b ∨ r b a) →
      (∀ a ∈ l, ∀ b ∈ l, ∀ c ∈ l, r a b → r b c → r a c) →
      (List.insertionSort r l).Pairwise r
  | [], _, _ => Pairwise.nil
  | a :: l, htot, htr => by
    rw [List.insertionSort]
    refine sorted_orderedInsert_local r a (List.insertionSort r l)
      (sorted_insertionSort_local r l
        (fun x hx y hy => htot x (mem_cons_of_mem _ hx) y (mem_cons_of_mem _ hy))
        (fun x hx y hy z hz => htr x (mem_cons_of_mem _ hx) y (mem_cons_of_mem _ hy)
          z (mem_cons_of_mem _ hz)))
      (fun b hb => htot a (mem_cons_self a l) b
        (mem_cons_of_mem _ ((List.mem_insertionSort r).mp hb)))
      (fun b hb c hc => htr a (mem_cons_self a l)
        b (mem_cons_of_mem _ ((List.mem_insertionSort r).mp hb))
        c (mem_cons_of_mem _ ((List.mem_insertionSort r).mp hc)))

/-- Two distinct members of a list occur in one of the two orders. -/
theorem pair_sublist_of_mem {α : Type} {a b : α} {l : List α}
    (hab : a ≠ b) (ha : a ∈ l) (hb : b ∈ l) :
    [a, b].Sublist l ∨ [b, a].Sublist l := by
  induction l with
  | nil => cases ha
  | cons c t ih =>
    by_cases hac : a = c
    · subst hac
      have hbt : b ∈ t := by
        rcases mem_cons.mp hb with h | h
        · exact absurd h.symm hab
        · exact h
      exact Or.inl (Sublist.cons₂ a (singleton_sublist.mpr hbt))
    · have hat : a ∈ t := (mem_cons.mp ha).resolve_left hac
      by_cases hbc : b = c
      · subst hbc
        exact Or.inr (Sublist.cons₂ b (singleton_sublist.mpr hat))
      · have hbt : b ∈ t := (mem_cons.mp hb).resolve_left hbc
        rcases ih hat hbt with h | h
        · exact Or.inl (h.cons c)
        · exact Or.inr (h.cons c)

/-- In a duplicate-free list two elements cannot occur in both orders. -/
theorem eq_of_pair_sublist_both {α : Type} {a b : α} {l : List α}
    (hn : l.Nodup) (h1 : [a, b].Sublist l) (h2 : [b, a].Sublist l) : a = b := by
  induction l with
  | nil => cases h1
  | cons c t ih =>
    have hct : c ∉ t := (nodup_cons.mp hn).1
    have hnt : t.Nodup := (nodup_cons.mp hn).2
    cases h1 with
    | cons _ h1' =>
      cases h2 with
      | cons _ h2' => exact ih hnt h1' h2'
      | cons₂ _ h2' => exact absurd (h1'.subset (by simp)) hct
    | cons₂ _ h1' =>
      cases h2 with
      | cons _ h2' => exact absurd (h2'.subset (by simp)) hct
      | cons₂ _ h2' => rfl

/-- A duplicate-free list does not contain the same element twice as a
sublist. -/
theorem not_pair_self_sublist {α : Type} [DecidableEq α] {a : α} {l : List α}
    (hn : l.Nodup) : ¬ [a, a].Sublist l := by
  intro h
  have h2 : 2 ≤ l.count a := by simpa using h.count_le a
  have h1 : l.count a ≤ 1 := nodup_iff_count_le_one.mp hn a
  omega

/-- A two-element sublist of a mapped list comes from a two-element sublist
of the original. -/
theorem pair_sublist_map {α β : Type} {f : α → β} {x y : β} :
    ∀ {l : List α}, [x, y].Sublist (l.map f) →
      ∃ a b, [a, b].Sublist l ∧ f a = x ∧ f b = y := by
  intro l
  induction l with
  | nil => intro h; cases h
  | cons c t ih =>
    intro h
    rw [map_cons] at h
    cases h with
    | cons _ h' =>
      obtain ⟨a, b, hab, hfa, hfb⟩ := ih h'
      exact ⟨a, b, hab.cons c, hfa, hfb⟩
    | cons₂ _ h' =>
      have hy : y ∈ t.map f := h'.subset (by simp)
      obtain ⟨b, hb, hfb⟩ := mem_map.mp hy
      exact ⟨c, b, Sublist.cons₂ c (singleton_sublist.mpr hb), rfl, hfb⟩

theorem normSq_nonneg (v : Vec) : 0 ≤ normSq v := by
  unfold normSq dot
  rw [zipWith_same]
  exact List.sum_nonneg (by
    intro x hx
    obtain ⟨a, _, rfl⟩ := mem_map.mp hx
    exact mul_self_nonneg a)

theorem normSq_pos {v : Vec} (hv : normSq v ≠ 0) : 0 < normSq v :=
  lt_of_le_of_ne (normSq_nonneg v) (Ne.symm hv)

theorem cosine_similarity_valid {q v : Vec} (hq : normSq q ≠ 0) (hv : normSq v ≠ 0) :
    cosine_similarity q v = some ⟨dot q v, normSq q * normSq v⟩ := by
  simp [cosine_similarity, hq, hv]

/-- The comparison used by the sort is total even in the presence of NaN
scores: two NaN-involving comparisons are both false. -/
theorem ascR_total (a b : String × Option Score) : ascR a b ∨ ascR b a := by
  unfold ascR keyLt
  cases ha : a.2 with
  | none => cases b.2 <;> simp [optLt]
  | some x =>
    cases hb : b.2 with
    | none => simp [optLt]
    | some y =>
      simp only [optLt, scoreLtB]
      rcases le_or_lt (x.d * |x.d| * y.s) (y.d * |y.d| * x.s) with h | h
      · exact Or.inl (by simpa using not_lt.mpr h)
      · exact Or.inr (by simpa using not_lt.mpr (le_of_lt h))

/-- On scores produced by `cosine_similarity` from nonzero-norm vectors the
comparison is transitive. -/
theorem ascR_trans_valid {a b c : String × Option Score}
    (ha : validRes a) (hb : validRes b) (hc : validRes c)
    (h1 : ascR a b) (h2 : ascR b c) : ascR a c := by
  obtain ⟨x, hx, hxs⟩ := ha
  obtain ⟨y, hy, hys⟩ := hb
  obtain ⟨z, hz, hzs⟩ := hc
  unfold ascR keyLt at h1 h2 ⊢
  rw [hx, hy] at h1
  rw [hy, hz] at h2
  rw [hx, hz]
  simp only [optLt, scoreLtB, decide_eq_false_iff_not, not_lt] at h1 h2 ⊢
  nlinarith [mul_le_mul_of_nonneg_right h1 (le_of_lt hzs),
    mul_le_mul_of_nonneg_right h2 (le_of_lt hxs), hys]

theorem pySlice_sublist (k : ℤ) {α : Type} (l : List α) : (pySlice k l).Sublist l := by
  unfold pySlice
  split <;> exact take_sublist _ _

theorem pySlice_length (k : ℤ) {α : Type} (l : List α) :
    (pySlice k l).length =
      if k < 0 then l.length - (-k).toNat else min k.toNat l.length := by
  unfold pySlice
  split
  · rw [length_take]
    exact min_eq_left (Nat.sub_le _ _)
  · exact length_take _ _

theorem pySlice_of_length_le (k : ℤ) {α : Type} (l : List α)
    (h : (l.length : ℤ) ≤ k) : pySlice k l = l := by
  unfold pySlice
  split
  · next hk =>
    have h0 : (0 : ℤ) ≤ (l.length : ℤ) := Int.natCast_nonneg _
    omega
  · next hk =>
    refine take_of_length_le ?_
    omega

theorem pySortDesc_perm (l : List (String × Option Score)) : (pySortDesc l).Perm l :=
  ((reverse_perm _).trans (List.perm_insertionSort ascR l.reverse)).trans (reverse_perm l)

theorem pySortDesc_length (l : List (String × Option Score)) :
    (pySortDesc l).length = l.length :=
  (pySortDesc_perm l).length_eq

/-- With every candidate score valid (non-NaN, positive norm product), the
descending sort really sorts: no element is strictly smaller than a later
one. -/
theorem pySortDesc_pairwise (l : List (String × Option Score))
    (hval : ∀ x ∈ l, validRes x) :
    (pySortDesc l).Pairwise (fun x y => keyLt x y = false) := by
  have hsort : (List.insertionSort ascR l.reverse).Pairwise ascR :=
    sorted_insertionSort_local ascR l.reverse
      (fun a _ b _ => ascR_total a b)
      (fun a hha b hhb c hhc hab hbc =>
        ascR_trans_valid (hval a (mem_reverse.mp hha)) (hval b (mem_reverse.mp hhb))
          (hval c (mem_reverse.mp hhc)) hab hbc)
  exact pairwise_reverse.mpr hsort

/-- Stability, read off the sorted output: two tied distinct elements of a
duplicate-free list appear in the output in their input order. -/
theorem pySortDesc_stable_back {l : List (String × Option Score)} (hn : l.Nodup)
    {x y : String × Option Score} (hxy : [x, y].Sublist (pySortDesc l))
    (tx : keyLt x y = false) (ty : keyLt y x = false) : [x, y].Sublist l := by
  have hnd : (pySortDesc l).Nodup := ((pySortDesc_perm l).symm).nodup hn
  by_cases hee : x = y
  · subst hee
    exact absurd hxy (not_pair_self_sublist hnd)
  · have hxl : x ∈ l := (pySortDesc_perm l).subset (hxy.subset (by simp))
    have hyl : y ∈ l := (pySortDesc_perm l).subset (hxy.subset (by simp))
    rcases pair_sublist_of_mem hee hxl hyl with h | h
    · exact h
    · exfalso
      have h1 : [x, y].Sublist l.reverse := by simpa using h.reverse
      have h2 : [x, y].Sublist (List.insertionSort ascR l.reverse) :=
        List.pair_sublist_insertionSort (by exact ty) h1
      have h3 : [y, x].Sublist (pySortDesc l) := by simpa [pySortDesc] using h2.reverse
      exact hee (eq_of_pair_sublist_both hnd hxy h3)

theorem aupsert_idem {κ β : Type} [DecidableEq κ] (l : List (κ × β)) (k : κ) (v : β) :
    aupsert (aupsert l k v) k v = aupsert l k v := by
  induction l with
  | nil => simp [aupsert]
  | cons e es ih =>
    by_cases he : e.1 = k
    · simp [aupsert, he]
    · simp [aupsert, he, ih]

/-- Unconditionally, `search` produces a slice of the sorted scored list (the empty
dictionary early-return included). -/
theorem search_eq_slice (q : Vec) (embs : List (String × Vec)) (k : ℤ) :
    search q embs k =
      pySlice k (pySortDesc (embs.map (fun pv => (pv.1, cosine_similarity q pv.2)))) := by
  unfold search
  split
  · next h =>
    have hnil : embs = [] := by
      cases embs with
      | nil => rfl
      | cons e t => simp [isEmpty] at h
    subst hnil
    simp [pySortDesc, pySlice]
  · rfl

/-- Ties are mutually non-less. -/
theorem optScoreEq_not_lt {a b : Option Score} (h : optScoreEq a b = true) :
    optLt a b = false ∧ optLt b a = false := by
  cases a with
  | none => simp [optScoreEq] at h
  | some x =>
    cases b with
    | none => simp [optScoreEq] at h
    | some y =>
      simp only [optScoreEq, scoreEqB, decide_eq_true_eq] at h
      constructor
      · simpa [optLt, scoreLtB] using not_lt.mpr (le_of_eq h.symm)
      · simpa [optLt, scoreLtB] using not_lt.mpr (le_of_eq h)

theorem length_filterMap_lt_of_none {α β : Type} {f : α → Option β} {l : List α} {a : α}
    (ha : a ∈ l) (hfa : f a = none) : (l.filterMap f).length < l.length := by
  induction l with
  | nil => cases ha
  | cons c t ih =>
    rcases mem_cons.mp ha with rfl | hat
    · rw [filterMap_cons, hfa]
      exact Nat.lt_succ_of_le (length_filterMap_le f t)
    · rw [filterMap_cons]
      cases hfc : f c with
      | none => exact Nat.lt_succ_of_lt (ih hat)
      | some b => simpa using Nat.succ_lt_succ (ih hat)

/-- Scored candidate lists keep the path keys in the first component. -/
theorem scored_nodup {q : Vec} {embs : List (String × Vec)}
    (hnd : (embs.map Prod.fst).Nodup) :
    (embs.map (fun pv => (pv.1, cosine_similarity q pv.2))).Nodup := by
  refine Nodup.of_map Prod.fst ?_
  rw [map_map]
  exact hnd

theorem scored_valid {q : Vec} {embs : List (String × Vec)}
    (hq : normSq q ≠ 0) (hc : ∀ pv ∈ embs, normSq pv.2 ≠ 0) :
    ∀ x ∈ embs.map (fun pv => (pv.1, cosine_similarity q pv.2)), validRes x := by
  intro x hx
  obtain ⟨pv, hpv, rfl⟩ := mem_map.mp hx
  exact ⟨⟨dot q pv.2, normSq q * normSq pv.2⟩,
    cosine_similarity_valid hq (hc pv hpv),
    mul_pos (normSq_pos hq) (normSq_pos (hc pv hpv))⟩

theorem nsOf_aupsert_self (r : NsDir) (l : List (String × NsDir)) (m : String) (X : NsDir) :
    nsOf ⟨r, aupsert l m X⟩ m = X := by
  unfold nsOf
  rw [alookup_aupsert_self]
  rfl

theorem nsOf_aupsert_ne (r r2 : NsDir) (l : List (String × NsDir)) (m : String) (X : NsDir)
    (m1 : String) (h : m1 ≠ m) : nsOf ⟨r, aupsert l m X⟩ m1 = nsOf ⟨r2, l⟩ m1 := by
  unfold nsOf
  rw [alookup_aupsert_ne _ _ h]

theorem migrate_none {m : String} {fs : FS} (h : fs.root.manifest = none) :
    migrate_if_needed m fs = fs := by
  unfold migrate_if_needed
  rw [h]

theorem migrate_some {m : String} {fs : FS} {M : Manifest} (h : fs.root.manifest = some M) :
    migrate_if_needed m fs =
      { root := { manifest := if ((nsOf fs m).manifest).isSome then some M else none,
                  embDir := fs.root.embDir.map
                    (fun _ => (moveNew (emb_files fs.root) (emb_files (nsOf fs m))).1) },
        models := aupsert fs.models m
          ⟨some (((nsOf fs m).manifest).getD M),
           some (moveNew (emb_files fs.root) (emb_files (nsOf fs m))).2⟩ } := by
  unfold migrate_if_needed
  rw [h]

/-! ## Claims -/

/-- C1, counterexample: the zero-norm candidate `("z", [0,0])` is not skipped
by `SearchEngine.search`: it receives a NaN score and appears in the ranked
results (here in front of the valid candidate), contradicting the claim that
such a candidate never appears in the returned ranked results. -/
theorem C1_counterexample :
    normSq [(0 : ℚ), 0] = 0 ∧
    search [1, 0] [("z", [0, 0]), ("a", [1, 0])] 20 =
      [("z", none), ("a", some ⟨1, 1⟩)] ∧
    ("z", (none : Option Score)) ∈ search [1, 0] [("z", [0, 0]), ("a", [1, 0])] 20 := by
  have he : search [1, 0] [("z", [0, 0]), ("a", [1, 0])] 20 =
      [("z", none), ("a", some ⟨1, 1⟩)] := by
    norm_num [search, pySortDesc, pySlice, cosine_similarity, normSq, dot,
      scoreLtB, optLt, keyLt, ascR]
  exact ⟨by norm_num [normSq, dot], he, by rw [he]; simp⟩

/-- C1 (amended): a candidate whose stored vector has zero L2 norm does not
abort the search, but it is not skipped either: it is scored NaN and is
included in the ranked results (whenever `top_k` covers the candidate count it
is present in the returned list). -/
theorem C1_zero_norm_included :
    ∀ (q : Vec) (embs : List (String × Vec)) (k : ℤ) (p : String) (v : Vec),
      (p, v) ∈ embs → normSq v = 0 → (embs.length : ℤ) ≤ k →
      (p, none) ∈ search q embs k := by
  intro q embs k p v hmem hv hk
  rw [search_eq_slice, pySlice_of_length_le]
  · exact (pySortDesc_perm _).mem_iff.mpr
      (mem_map.mpr ⟨(p, v), hmem, by simp [cosine_similarity, hv]⟩)
  · rw [pySortDesc_length, length_map]
    exact hk

/-- C1, witness for the amended claim at a concrete input. -/
theorem C1_zero_norm_included_witness :
    ("zz", (none : Option Score)) ∈ search [1, 0] [("zz", [0, 0]), ("aa", [1, 0])] 20 :=
  C1_zero_norm_included [1, 0] [("zz", [0, 0]), ("aa", [1, 0])] 20 "zz" [0, 0]
    (by simp) (by norm_num [normSq, dot]) (by norm_num)

/-- C2, counterexample: with two candidates, the non-positive `top_k = -1`
returns one result, not the empty list (Python slice semantics); moreover the
truncation counts a zero-norm candidate, so one zero-norm candidate with
`top_k = 5` yields a result of length 1 although there are no valid
candidates. -/
theorem C2_counterexample :
    (search [1, 0] [("a", [1, 0]), ("b", [0, 1])] (-1)).length = 1 ∧
    normSq [(0 : ℚ), 0] = 0 ∧
    (search [1, 0] [("z", [0, 0])] 5).length = 1 := by
  refine ⟨?_, by norm_num [normSq, dot], ?_⟩ <;>
    norm_num [search, pySortDesc, pySlice, cosine_similarity, normSq, dot,
      scoreLtB, optLt, keyLt, ascR]

/-- C2 (amended): the result length is `min(top_k, number of candidates in the
cache's embedding map)` for `top_k ≥ 0` (so `top_k = 0` gives an empty
result); a negative `top_k` follows Python slice semantics and yields the
first `max(0, candidates + top_k)` results rather than an empty list; `top_k`
defaults to 20; no value raises an error. -/
theorem C2_truncation :
    (∀ (q : Vec) (embs : List (String × Vec)) (k : ℤ),
      (search q embs k).length =
        if k < 0 then embs.length - (-k).toNat else min k.toNat embs.length) ∧
    (∀ (q : Vec) (embs : List (String × Vec)), search q embs = search q embs 20) := by
  refine ⟨fun q embs k => ?_, fun q embs => rfl⟩
  rw [search_eq_slice, pySlice_length, pySortDesc_length, length_map]

/-- C3, counterexample: with candidate iteration order
`a = [1,1], b = [0,0], c = [1,0]` and query `[1,0]`, the NaN score of the
zero-norm candidate `b` disrupts the sort: the output starts with `a`
(score `1/sqrt 2`) although the strictly greater-scored `c` (score `1`)
comes later, so the returned pairs are not in descending order of score. -/
theorem C3_counterexample :
    search [1, 0] [("a", [1, 1]), ("b", [0, 0]), ("c", [1, 0])] 20 =
      [("a", some ⟨1, 2⟩), ("b", none), ("c", some ⟨1, 1⟩)] ∧
    optLt (some ⟨1, 2⟩) (some ⟨1, 1⟩) = true := by
  constructor <;>
    norm_num [search, pySortDesc, pySlice, cosine_similarity, normSq, dot,
      scoreLtB, optLt, keyLt, ascR]

/-- C3 (amended): provided the query and every candidate vector have nonzero
norm (so no NaN score arises) and the candidate path keys are distinct, the
results of `search` are sorted in descending order of score, and any two
candidates with exactly equal score values appear in the same relative order
as in the candidate iteration presented by the cache. -/
theorem C3_sorted_stable :
    ∀ (q : Vec) (embs : List (String × Vec)) (k : ℤ),
      normSq q ≠ 0 → (∀ pv ∈ embs, normSq pv.2 ≠ 0) → (embs.map Prod.fst).Nodup →
      (search q embs k).Pairwise (fun x y => keyLt x y = false) ∧
      (∀ p1 s1 p2 s2, [(p1, s1), (p2, s2)].Sublist (search q embs k) →
        optScoreEq s1 s2 = true →
        ∃ v1 v2, [(p1, v1), (p2, v2)].Sublist embs) := by
  intro q embs k hq hc hnd
  rw [search_eq_slice]
  constructor
  · exact (pySortDesc_pairwise _ (scored_valid hq hc)).sublist (pySlice_sublist k _)
  · intro p1 s1 p2 s2 hsub heq
    obtain ⟨tx, ty⟩ := optScoreEq_not_lt heq
    have hsub2 : [(p1, s1), (p2, s2)].Sublist
        (pySortDesc (embs.map (fun pv => (pv.1, cosine_similarity q pv.2)))) :=
      hsub.trans (pySlice_sublist k _)
    have hback : [(p1, s1), (p2, s2)].Sublist
        (embs.map (fun pv => (pv.1, cosine_similarity q pv.2))) :=
      pySortDesc_stable_back (scored_nodup hnd) hsub2 tx ty
    obtain ⟨e1, e2, he, hf1, hf2⟩ := pair_sublist_map hback
    obtain ⟨a1, v1⟩ := e1
    obtain ⟨a2, v2⟩ := e2
    simp only [Prod.mk.injEq] at hf1 hf2
    obtain ⟨rfl, -⟩ := hf1
    obtain ⟨rfl, -⟩ := hf2
    exact ⟨v1, v2, he⟩

/-- C3, witness for the amended claim at a concrete input. -/
theorem C3_sorted_stable_witness :
    (search [1, 0] [("aa", [1, 0]), ("bb", [0, 1])] 2).Pairwise
      (fun x y => keyLt x y = false) :=
  (C3_sorted_stable [1, 0] [("aa", [1, 0]), ("bb", [0, 1])] 2
    (by norm_num [normSq, dot])
    (by
      intro pv hpv
      simp only [mem_cons, not_mem_nil, or_false] at hpv
      rcases hpv with rfl | rfl <;> norm_num [normSq, dot])
    (by simp)).1

/-- Running the migration a second time changes nothing: every file moved by
the first run is in the destination, every file left behind collides with a
destination file, and the legacy manifest is either gone or still colliding. -/
theorem migrate_idem (m : String) (fs : FS) :
    migrate_if_needed m (migrate_if_needed m fs) = migrate_if_needed m fs := by
  cases hM : fs.root.manifest with
  | none => rw [migrate_none hM, migrate_none hM]
  | some M =>
    have hmig := migrate_some (m := m) hM
    have hns' : nsOf (migrate_if_needed m fs) m =
        ⟨some (((nsOf fs m).manifest).getD M),
         some (moveNew (emb_files fs.root) (emb_files (nsOf fs m))).2⟩ := by
      rw [hmig]
      exact nsOf_aupsert_self _ _ _ _
    cases hns : (nsOf fs m).manifest with
    | none =>
      apply migrate_none
      rw [hmig]
      simp [hns]
    | some M0 =>
      have hroot2 : (migrate_if_needed m fs).root.manifest = some M := by
        rw [hmig]
        simp [hns]
      rw [migrate_some hroot2, hns', hns]
      rw [hmig]
      cases hre : fs.root.embDir with
      | none =>
        simp [emb_files, moveNew, aupsert_idem, hns, hre]
      | some oldF =>
        have hfix := moveNew_fixed (moveNew_rem_in_final oldF (emb_files (nsOf fs m)))
        simp only [emb_files] at hfix
        simp [emb_files, hre, hns, hfix, aupsert_idem]

/-- C4: `has_embedding` is true iff the manifest has an entry for the key AND
the file that entry references exists; `load_embedding` on a stale entry
(manifest entry whose file is missing) or on a never-written key returns
`None`, not an error. -/
theorem C4_has_get :
    ∀ (ns : NsDir) (p : String),
      (has_embedding ns p = true ↔
        ∃ fn, alookup (load_manifest ns) p = some fn ∧ file_exists ns fn = true) ∧
      (∀ fn, alookup (load_manifest ns) p = some fn → file_exists ns fn = false →
        load_embedding ns p = none) ∧
      (alookup (load_manifest ns) p = none → load_embedding ns p = none) := by
  intro ns p
  unfold has_embedding load_embedding get_embedding_path
  cases hm : alookup (load_manifest ns) p with
  | none => simp
  | some fn =>
    cases hf : file_exists ns fn with
    | false => simp [hf]
    | true => simp [hf]

/-- C4, witness: on a namespace with one live entry and one stale entry, the
live key is reported present and the stale key loads as `None`. -/
theorem C4_has_get_witness :
    has_embedding ⟨some [("a", "f1"), ("b", "f2")], some [("f1", ⟨[1], 8⟩)]⟩ "a" = true ∧
    load_embedding ⟨some [("a", "f1"), ("b", "f2")], some [("f1", ⟨[1], 8⟩)]⟩ "b" = none :=
  ⟨(C4_has_get ⟨some [("a", "f1"), ("b", "f2")], some [("f1", ⟨[1], 8⟩)]⟩ "a").1.mpr
      ⟨"f1", rfl, rfl⟩,
   (C4_has_get ⟨some [("a", "f1"), ("b", "f2")], some [("f1", ⟨[1], 8⟩)]⟩ "b").2.1
      "f2" rfl rfl⟩

/-- C5: `save_embedding` followed by `load_embedding` on the same path key in
the same namespace returns exactly the stored vector (`np.save`/`np.load`
round-trip the numeric values losslessly, so equality holds componentwise,
in particular within any floating-point tolerance). -/
theorem C5_roundtrip :
    ∀ (hash : String → String) (npySize : Vec → ℕ) (ns : NsDir) (p : String) (v : Vec)
      (ns2 : NsDir),
      save_embedding hash npySize ns p v = some ns2 →
      load_embedding ns2 p = some v := by
  intro hash npySize ns p v ns2 hsave
  unfold save_embedding at hsave
  cases hdir : ns.embDir with
  | none =>
    rw [hdir] at hsave
    cases hsave
  | some files =>
    rw [hdir] at hsave
    injection hsave with hns2
    subst hns2
    have h1 : alookup (aupsert (load_manifest ns) p (hash p)) p = some (hash p) :=
      alookup_aupsert_self _ _ _
    have h2 : alookup (aupsert files (hash p) ⟨v, npySize v⟩) (hash p) =
        some ⟨v, npySize v⟩ := alookup_aupsert_self _ _ _
    unfold load_embedding get_embedding_path
    simp only [load_manifest] at h1
    simp [load_manifest, emb_files, file_exists, h1, h2]

/-- C5, witness: a concrete save/load round-trip. -/
theorem C5_roundtrip_witness :
    load_embedding ⟨some [("a", "f")], some [("f", ⟨[1], 8⟩)]⟩ "a" = some [1] :=
  C5_roundtrip (fun _ => "f") (fun _ => 8) ⟨none, some []⟩ "a" [1]
    ⟨some [("a", "f")], some [("f", ⟨[1], 8⟩)]⟩ rfl

/-- C6: legacy-layout migration is idempotent (a second run is the identity on
the whole cache file system), it is a no-op without error when no legacy
manifest is present, and it never overwrites an existing destination file nor
an existing destination manifest. -/
theorem C6_migration_idempotent :
    ∀ (m : String) (fs : FS),
      migrate_if_needed m (migrate_if_needed m fs) = migrate_if_needed m fs ∧
      (fs.root.manifest = none → migrate_if_needed m fs = fs) ∧
      (∀ fn c, alookup (emb_files (nsOf fs m)) fn = some c →
        alookup (emb_files (nsOf (migrate_if_needed m fs) m)) fn = some c) ∧
      (∀ M0, (nsOf fs m).manifest = some M0 →
        (nsOf (migrate_if_needed m fs) m).manifest = some M0) := by
  intro m fs
  refine ⟨migrate_idem m fs, fun h => migrate_none h, ?_, ?_⟩
  · intro fn c h
    cases hM : fs.root.manifest with
    | none =>
      rw [migrate_none hM]
      exact h
    | some M =>
      rw [migrate_some hM, nsOf_aupsert_self]
      simp only [emb_files, Option.getD_some]
      exact moveNew_dst_lookup h
  · intro M0 h
    cases hM : fs.root.manifest with
    | none =>
      rw [migrate_none hM]
      exact h
    | some M =>
      rw [migrate_some hM, nsOf_aupsert_self]
      simp [h]

/-- C6, witness: migration is a no-op on a cache without legacy layout, and it
preserves an existing destination file and destination manifest. -/
theorem C6_migration_idempotent_witness :
    migrate_if_needed "m1" ⟨⟨none, none⟩, []⟩ = ⟨⟨none, none⟩, []⟩ ∧
    alookup (emb_files (nsOf (migrate_if_needed "m1"
        ⟨⟨some [("i", "f")], some [("f", ⟨[2], 9⟩)]⟩,
         [("m1", ⟨some [("j", "g")], some [("g", ⟨[3], 7⟩)]⟩)]⟩) "m1")) "g" =
      some ⟨[3], 7⟩ ∧
    (nsOf (migrate_if_needed "m1"
        ⟨⟨some [("i", "f")], some [("f", ⟨[2], 9⟩)]⟩,
         [("m1", ⟨some [("j", "g")], some [("g", ⟨[3], 7⟩)]⟩)]⟩) "m1").manifest =
      some [("j", "g")] :=
  ⟨(C6_migration_idempotent "m1" ⟨⟨none, none⟩, []⟩).2.1 rfl,
   (C6_migration_idempotent "m1"
      ⟨⟨some [("i", "f")], some [("f", ⟨[2], 9⟩)]⟩,
       [("m1", ⟨some [("j", "g")], some [("g", ⟨[3], 7⟩)]⟩)]⟩).2.2.1 "g" ⟨[3], 7⟩ rfl,
   (C6_migration_idempotent "m1"
      ⟨⟨some [("i", "f")], some [("f", ⟨[2], 9⟩)]⟩,
       [("m1", ⟨some [("j", "g")], some [("g", ⟨[3], 7⟩)]⟩)]⟩).2.2.2 [("j", "g")] rfl⟩

/-- C7, counterexample: with a legacy manifest still present at the cache root
(kept there because the constructor's model `m1` already had a manifest),
activating the fresh model name `m2` through `set_model` performs no
migration: the legacy manifest stays at the root and nothing is moved into
the `m2` namespace, contradicting the claim that the legacy layout is moved
on first use of a model name also when it becomes active via `set_model`. -/
theorem C7_counterexample :
    (set_model ⟨"m1"⟩ "m2" (CM.init "m1"
        ⟨⟨some [("i", "f1")], some [("f1", ⟨[1], 4⟩)]⟩,
         [("m1", ⟨some [], none⟩)]⟩).1).1.root.manifest = some [("i", "f1")] ∧
    (nsOf (set_model ⟨"m1"⟩ "m2" (CM.init "m1"
        ⟨⟨some [("i", "f1")], some [("f1", ⟨[1], 4⟩)]⟩,
         [("m1", ⟨some [], none⟩)]⟩).1).1 "m2").manifest = none :=
  ⟨rfl, rfl⟩

/-- C7 (amended): the legacy layout is migrated only during construction, into
the constructor's model namespace; `set_model` switches and creates the
derived directories but performs no migration: it never touches the cache
root and never changes any namespace's manifest. -/
theorem C7_migration_on_first_use :
    (∀ (m : String) (fs : FS) (M : Manifest),
      fs.root.manifest = some M → (nsOf fs m).manifest = none →
      (nsOf (CM.init m fs).1 m).manifest = some M ∧
      (CM.init m fs).1.root.manifest = none) ∧
    (∀ (cm : CM) (n : String) (fs : FS),
      (set_model cm n fs).1.root = fs.root ∧
      ∀ m1, (nsOf (set_model cm n fs).1 m1).manifest = (nsOf fs m1).manifest) := by
  constructor
  · intro m fs M hM hns
    have h1 : nsOf (migrate_if_needed m fs) m =
        ⟨some M, some (moveNew (emb_files fs.root) (emb_files (nsOf fs m))).2⟩ := by
      rw [migrate_some hM, nsOf_aupsert_self]
      simp [hns]
    have h2 : (migrate_if_needed m fs).root.manifest = none := by
      rw [migrate_some hM]
      simp [hns]
    constructor
    · show (nsOf (set_model_dir m (migrate_if_needed m fs)) m).manifest = some M
      unfold set_model_dir
      rw [nsOf_aupsert_self]
      simp [h1]
    · show (set_model_dir m (migrate_if_needed m fs)).root.manifest = none
      exact h2
  · intro cm n fs
    unfold set_model
    by_cases h : n ≠ cm.model_name
    · rw [if_pos h]
      refine ⟨rfl, ?_⟩
      intro m1
      unfold set_model_dir
      by_cases h1 : m1 = n
      · subst h1
        rw [nsOf_aupsert_self]
      · rw [nsOf_aupsert_ne _ fs.root _ _ _ _ h1]
    · rw [if_neg h]
      exact ⟨rfl, fun m1 => rfl⟩

/-- C7, witness for the amended claim: construction migrates a legacy manifest
into a fresh constructor namespace, and `set_model` leaves the cache root
untouched. -/
theorem C7_migration_on_first_use_witness :
    ((nsOf (CM.init "m1" ⟨⟨some [("i", "f1")], none⟩, []⟩).1 "m1").manifest =
        some [("i", "f1")] ∧
      (CM.init "m1" ⟨⟨some [("i", "f1")], none⟩, []⟩).1.root.manifest = none) ∧
    (set_model ⟨"m1"⟩ "m2" ⟨⟨some [("i", "f1")], none⟩, []⟩).1.root =
      (⟨⟨some [("i", "f1")], none⟩, []⟩ : FS).root :=
  ⟨C7_migration_on_first_use.1 "m1" ⟨⟨some [("i", "f1")], none⟩, []⟩ [("i", "f1")] rfl rfl,
   (C7_migration_on_first_use.2 ⟨"m1"⟩ "m2" ⟨⟨some [("i", "f1")], none⟩, []⟩).1⟩

/-- C8: `clear_all` empties the active namespace — afterwards `all_keys` is
empty and the vector-file directory holds zero files — while every other
namespace is left completely unchanged. -/
theorem C8_clear_all :
    ∀ (fs : FS) (m : String),
      get_all_image_paths (nsOf (cm_clear_all fs m) m) = [] ∧
      emb_files (nsOf (cm_clear_all fs m) m) = [] ∧
      (∀ m1, m1 ≠ m → nsOf (cm_clear_all fs m) m1 = nsOf fs m1) := by
  intro fs m
  have hself : nsOf (cm_clear_all fs m) m = clear_all (nsOf fs m) := by
    unfold cm_clear_all
    exact nsOf_aupsert_self _ _ _ _
  refine ⟨?_, ?_, ?_⟩
  · rw [hself]
    rfl
  · rw [hself]
    unfold clear_all emb_files
    cases (nsOf fs m).embDir <;> rfl
  · intro m1 hne
    unfold cm_clear_all
    rw [nsOf_aupsert_ne _ fs.root _ _ _ _ hne]

/-- C8, witness: clearing namespace `m1` empties it and leaves namespace `m2`
unchanged. -/
theorem C8_clear_all_witness :
    get_all_image_paths (nsOf (cm_clear_all
        ⟨⟨none, none⟩, [("m1", ⟨some [("x", "f")], some [("f", ⟨[1], 2⟩)]⟩),
                        ("m2", ⟨some [("y", "g")], some [("g", ⟨[2], 3⟩)]⟩)]⟩ "m1") "m1") = [] ∧
    nsOf (cm_clear_all
        ⟨⟨none, none⟩, [("m1", ⟨some [("x", "f")], some [("f", ⟨[1], 2⟩)]⟩),
                        ("m2", ⟨some [("y", "g")], some [("g", ⟨[2], 3⟩)]⟩)]⟩ "m1") "m2" =
      nsOf ⟨⟨none, none⟩, [("m1", ⟨some [("x", "f")], some [("f", ⟨[1], 2⟩)]⟩),
                           ("m2", ⟨some [("y", "g")], some [("g", ⟨[2], 3⟩)]⟩)]⟩ "m2" :=
  ⟨(C8_clear_all ⟨⟨none, none⟩, [("m1", ⟨some [("x", "f")], some [("f", ⟨[1], 2⟩)]⟩),
      ("m2", ⟨some [("y", "g")], some [("g", ⟨[2], 3⟩)]⟩)]⟩ "m1").1,
   (C8_clear_all ⟨⟨none, none⟩, [("m1", ⟨some [("x", "f")], some [("f", ⟨[1], 2⟩)]⟩),
      ("m2", ⟨some [("y", "g")], some [("g", ⟨[2], 3⟩)]⟩)]⟩ "m1").2.2 "m2" (by decide)⟩

/-- C9: `get_stats` reports the manifest entry count as `image_count`, the
total byte size of the files in the embeddings directory (the manifest lives
outside that directory and is not counted) divided by 1024*1024 as
`cache_size_mb`, and as `folders` the sorted, duplicate-free list of the
parent directories of the cached path keys. -/
theorem C9_stats :
    ∀ ns : NsDir,
      (get_stats ns).image_count = (load_manifest ns).length ∧
      (get_stats ns).cache_size_mb =
        (((((emb_files ns).map (fun e => e.2.size)).sum : ℕ) : ℚ)) / (1024 * 1024) ∧
      (get_stats ns).folders.Pairwise (fun a b => a ≤ b) ∧
      (get_stats ns).folders.Nodup ∧
      (∀ f, f ∈ (get_stats ns).folders ↔
        ∃ p ∈ get_all_image_paths ns, dirname p = f) := by
  intro ns
  refine ⟨rfl, rfl, ?_, ?_, ?_⟩
  · have htot : ∀ (a b : String), strAscR a b ∨ strAscR b a := by
      intro a b
      unfold strAscR
      rcases le_or_lt a b with h | h
      · exact Or.inl (not_lt.mpr h)
      · exact Or.inr (not_lt.mpr (le_of_lt h))
    have htr : ∀ (a b c : String), strAscR a b → strAscR b c → strAscR a c := by
      intro a b c hab hbc
      unfold strAscR at hab hbc ⊢
      exact not_lt.mpr (le_trans (not_lt.mp hab) (not_lt.mp hbc))
    have hs := sorted_insertionSort_local strAscR
      (((load_manifest ns).map (fun e => dirname e.1)).dedup)
      (fun a _ b _ => htot a b) (fun a _ b _ c _ => htr a b c)
    exact hs.imp (fun h => not_lt.mp h)
  · exact ((List.perm_insertionSort strAscR _).nodup_iff).mpr (nodup_dedup _)
  · intro f
    constructor
    · intro hf
      have h1 := mem_dedup.mp ((List.mem_insertionSort strAscR).mp hf)
      obtain ⟨e, he, rfl⟩ := mem_map.mp h1
      exact ⟨e.1, mem_map.mpr ⟨e, he, rfl⟩, rfl⟩
    · rintro ⟨p, hp, rfl⟩
      obtain ⟨e, he, rfl⟩ := mem_map.mp hp
      exact (List.mem_insertionSort strAscR).mpr (mem_dedup.mpr (mem_map.mpr ⟨e, he, rfl⟩))

/-- C10: stale manifest entries are counted by `get_stats` — `image_count` is
the raw manifest entry count, so a manifest entry whose vector file is
missing makes `image_count` strictly exceed both the number of keys with
`has_embedding` true and the number of entries `get_all_embeddings` returns. -/
theorem C10_stale_counts :
    ∀ (ns : NsDir) (p fn : String),
      alookup (load_manifest ns) p = some fn → file_exists ns fn = false →
      (get_all_embeddings ns).length < (get_stats ns).image_count ∧
      (get_all_image_paths ns).countP (fun q => has_embedding ns q) <
        (get_stats ns).image_count := by
  intro ns p fn hm hf
  have hnone : alookup (emb_files ns) fn = none := by
    cases ho : alookup (emb_files ns) fn with
    | none => rfl
    | some v =>
      unfold file_exists at hf
      rw [ho] at hf
      cases hf
  constructor
  · refine length_filterMap_lt_of_none (alookup_mem hm) ?_
    show ((alookup (emb_files ns) fn).map (fun fl => (p, fl.vec))) = none
    rw [hnone]
    rfl
  · have hlen : (get_stats ns).image_count = (get_all_image_paths ns).length := by
      show (load_manifest ns).length = ((load_manifest ns).map Prod.fst).length
      rw [length_map]
    rw [hlen]
    refine lt_of_le_of_ne (countP_le_length _) ?_
    intro heq
    have hall := countP_eq_length.mp heq
    have hp : p ∈ get_all_image_paths ns :=
      mem_map.mpr ⟨(p, fn), alookup_mem hm, rfl⟩
    have htrue := hall p hp
    have hfalse : has_embedding ns p = false := by
      unfold has_embedding get_embedding_path
      rw [hm]
      simp [hf]
    rw [hfalse] at htrue
    cases htrue

/-- C10, witness: on a namespace with one live and one stale entry the strict
inequalities hold. -/
theorem C10_stale_counts_witness :
    (get_all_embeddings ⟨some [("a", "f1"), ("b", "f2")],
        some [("f1", ⟨[1], 8⟩)]⟩).length <
      (get_stats ⟨some [("a", "f1"), ("b", "f2")], some [("f1", ⟨[1], 8⟩)]⟩).image_count ∧
    (get_all_image_paths ⟨some [("a", "f1"), ("b", "f2")],
        some [("f1", ⟨[1], 8⟩)]⟩).countP
        (fun q => has_embedding ⟨some [("a", "f1"), ("b", "f2")],
          some [("f1", ⟨[1], 8⟩)]⟩ q) <
      (get_stats ⟨some [("a", "f1"), ("b", "f2")], some [("f1", ⟨[1], 8⟩)]⟩).image_count :=
  C10_stale_counts ⟨some [("a", "f1"), ("b", "f2")], some [("f1", ⟨[1], 8⟩)]⟩
    "b" "f2" rfl rfl

end ClipSearch
